import Mathlib

/-!
Shallow embedding of the Huffman file compressor in `src/main.rs`
(the second source file, `explaination.rs`, is the same code with
explanatory comments).

Modelling choices:
* Bytes are `Nat` values (`u8`, so < 256 wherever they arise).
* `frequency: i32` holds an occurrence count; it is modelled as `Nat`
  (exact for inputs shorter than 2^31 bytes, where the i32 arithmetic
  in the program cannot overflow).
* Rust `String`s over the characters 0 and 1 are modelled as
  `List Bool` (`false` = 0, `true` = 1); `u8::from_str_radix(s, 2)`
  becomes `bitsVal`, and the decoder expansion `format!("{:08b}", byte)`
  becomes `natToBits 8`.
* `HashMap` is modelled as an association list.  `freq_map` keeps keys
  in first-occurrence order; its content (the key → value mapping) is
  what the program observes.  The code tables built by
  `build_huff_codes` have pairwise distinct keys and pairwise distinct
  values, so `List.lookup` on the association list agrees with the
  `HashMap` lookups regardless of the map iteration order.
* `BinaryHeap<ByteNode>` (with the reversed `Ord` on `frequency`) pops
  some element of minimal frequency; which of several equal-frequency
  elements is popped is left unspecified by Rust, so tree construction
  is modelled relationally: `PopMin` is one pop and `BuildsTree` covers
  every possible execution of `create_huffman_tree`.  The function
  `create_huffman_tree` is one concrete execution (first minimal
  element), used where the loop's behaviour does not depend on
  tie-breaking.
-/

/-- The Rust struct `ByteNode { data: Option<u8>, frequency: i32,
left: Option<Box<ByteNode>>, right: Option<Box<ByteNode>> }`. -/
inductive ByteNode : Type where
  | mk : Option Nat → Nat → Option ByteNode → Option ByteNode → ByteNode

/-- The `data` field. -/
def ByteNode.data : ByteNode → Option Nat
  | .mk d _ _ _ => d

/-- The `frequency` field. -/
def ByteNode.frequency : ByteNode → Nat
  | .mk _ f _ _ => f

/-- The `left` field. -/
def ByteNode.left : ByteNode → Option ByteNode
  | .mk _ _ l _ => l

/-- The `right` field. -/
def ByteNode.right : ByteNode → Option ByteNode
  | .mk _ _ _ r => r

theorem ByteNode.data_mk (d : Option Nat) (f : Nat) (l r : Option ByteNode) :
    (ByteNode.mk d f l r).data = d := rfl

theorem ByteNode.frequency_mk (d : Option Nat) (f : Nat) (l r : Option ByteNode) :
    (ByteNode.mk d f l r).frequency = f := rfl

/-- One step of the loop `*freq_map.entry(byte).or_insert(0) += 1` on the
association-list model of the frequency map. -/
def addByte (m : List (Nat × Nat)) (b : Nat) : List (Nat × Nat) :=
  match m with
  | [] => [(b, 1)]
  | (k, v) :: rest => if k = b then (k, v + 1) :: rest else (k, v) :: addByte rest b

/-- The frequency map built by the first loop of `get_byte_nodes`. -/
def freq_map (bytes : List Nat) : List (Nat × Nat) :=
  bytes.foldl addByte []

/-- `get_byte_nodes`: one leaf `ByteNode` per entry of the frequency map
(the heap it returns is modelled as the list of its elements; the order
carries no information, see `BuildsTree`). -/
def get_byte_nodes (bytes : List Nat) : List ByteNode :=
  (freq_map bytes).map (fun p => ByteNode.mk (some p.1) p.2 none none)

/-- One `nodes.pop()` on the `BinaryHeap`: under the reversed `Ord` on
`frequency` it removes some element of minimal frequency; ties between
equal-frequency elements are broken in an unspecified way.  The popped
occurrence is singled out by an explicit split `l = p ++ x :: q`. -/
def PopMin (l : List ByteNode) (x : ByteNode) (l' : List ByteNode) : Prop :=
  (∃ p q, l = p ++ x :: q ∧ l' = p ++ q) ∧ ∀ y ∈ l, x.frequency ≤ y.frequency

/-- Every possible execution of `create_huffman_tree`: while more than one
node remains, pop the two lowest-frequency nodes, combine them into a
parent whose frequency is their sum, push the parent back; the final
remaining node is the result. -/
inductive BuildsTree : List ByteNode → ByteNode → Prop where
  | done (t : ByteNode) : BuildsTree [t] t
  | step (l l₁ l₂ : List ByteNode) (x y t : ByteNode) :
      PopMin l x l₁ → PopMin l₁ y l₂ →
      BuildsTree (ByteNode.mk none (x.frequency + y.frequency) (some x) (some y) :: l₂) t →
      BuildsTree l t

/-- One pop of the deterministic model: the first element of minimal
frequency, with the rest of the list.  (The inner `none` branch is
unreachable — `popMinD` is `some` on any non-empty list — and is filled
so that the popped list is always one element shorter.) -/
def popMinD : List ByteNode → Option (ByteNode × List ByteNode)
  | [] => none
  | [x] => some (x, [])
  | x :: y :: ys =>
    match popMinD (y :: ys) with
    | none => some (x, y :: ys)
    | some (m, rest) =>
      if x.frequency ≤ m.frequency then some (x, y :: ys) else some (m, x :: rest)

theorem popMinD_length : ∀ {l : List ByteNode} {x : ByteNode} {r : List ByteNode},
    popMinD l = some (x, r) → r.length + 1 = l.length := by
  intro l
  induction l with
  | nil => intro x r h; simp [popMinD] at h
  | cons a as ih =>
    intro x r h
    cases as with
    | nil => simp [popMinD] at h; simp [h.2.symm]
    | cons b bs =>
      simp only [popMinD] at h
      cases hm : popMinD (b :: bs) with
      | none => rw [hm] at h; simp at h; simp [h.2.symm]
      | some p =>
        rw [hm] at h
        obtain ⟨m, rest⟩ := p
        have hr := ih (x := m) (r := rest) hm
        by_cases hle : a.frequency ≤ m.frequency
        · simp [hle] at h; simp [h.2.symm]
        · simp [hle] at h
          rw [← h.2]
          simp only [List.length_cons] at hr ⊢
          omega

/-- `create_huffman_tree`, deterministically: pops are `popMinD`.  An empty
heap ends in `nodes.pop().unwrap()` panicking, modelled as `none`. -/
def create_huffman_tree (nodes : List ByteNode) : Option ByteNode :=
  match h : popMinD nodes with
  | none => none
  | some (x, r₁) =>
    match h₂ : popMinD r₁ with
    | none => some x
    | some (y, r₂) =>
      create_huffman_tree
        (ByteNode.mk none (x.frequency + y.frequency) (some x) (some y) :: r₂)
termination_by nodes.length
decreasing_by
  have e₁ := popMinD_length h
  have e₂ := popMinD_length h₂
  simp only [List.length_cons]
  omega

/-- `build_huff_codes`: if the node carries a byte value, record
`(value, prefix)`; otherwise descend into the children that are present,
appending 0 for left and 1 for right (the Rust code pushes the bit
before the recursive call and pops it after, i.e. the child is explored
with `prefix ++ [bit]`). -/
def build_huff_codes : ByteNode → List Bool → List (Nat × List Bool)
  | .mk (some d) _ _ _, pre => [(d, pre)]
  | .mk none _ none none, _ => []
  | .mk none _ (some lt) none, pre => build_huff_codes lt (pre ++ [false])
  | .mk none _ none (some rt), pre => build_huff_codes rt (pre ++ [true])
  | .mk none _ (some lt) (some rt), pre =>
      build_huff_codes lt (pre ++ [false]) ++ build_huff_codes rt (pre ++ [true])

/-- `get_huff_codes`: derive the code table from the tree root, starting
from the empty prefix. -/
def get_huff_codes (root : ByteNode) : List (Nat × List Bool) :=
  build_huff_codes root []

/-- The numeric value of a binary digit string, as
`u8::from_str_radix(s, 2)` computes it (most significant bit first). -/
def bitsVal (l : List Bool) : Nat :=
  l.foldl (fun acc b => 2 * acc + b.toNat) 0

/-- `str_builder.as_bytes().chunks(8)` followed by `u8::from_str_radix`:
the bit string split into groups of 8 (the last group may be shorter),
each group read as a binary numeral. -/
def chunkBits : List Bool → List Nat
  | [] => []
  | b₀ :: b₁ :: b₂ :: b₃ :: b₄ :: b₅ :: b₆ :: b₇ :: rest =>
      bitsVal [b₀, b₁, b₂, b₃, b₄, b₅, b₆, b₇] :: chunkBits rest
  | l => [bitsVal l]

/-- The first loop of `zip_bytes_with_codes`: concatenate the codes of the
input bytes in order; `huff_codes.get(&byte).unwrap()` panics when a byte
has no table entry, modelled by `none`. -/
def concatCodes (bytes : List Nat) (table : List (Nat × List Bool)) :
    Option (List Bool) :=
  match bytes with
  | [] => some []
  | b :: rest =>
    match table.lookup b, concatCodes rest table with
    | some c, some cs => some (c ++ cs)
    | _, _ => none

/-- `zip_bytes_with_codes`: concatenate the per-byte codes, then pack the
bit string eight bits per output byte. -/
def zip_bytes_with_codes (bytes : List Nat) (table : List (Nat × List Bool)) :
    Option (List Nat) :=
  (concatCodes bytes table).map chunkBits

/-- `create_zip`, with the deterministic tree builder: frequency nodes,
Huffman tree, code table, packed bytes. -/
def create_zip (bytes : List Nat) :
    Option (List Nat × List (Nat × List Bool)) :=
  match create_huffman_tree (get_byte_nodes bytes) with
  | none => none
  | some root =>
    match zip_bytes_with_codes bytes (get_huff_codes root) with
    | none => none
    | some packed => some (packed, get_huff_codes root)

/-- `format!("{:08b}", n)` as a bit list: `natToBits w n` is the `w`-bit
binary rendering of `n`, most significant bit first (exact for
`n < 2 ^ w`; the decoder only ever applies it to `u8` values with
`w = 8`). -/
def natToBits : Nat → Nat → List Bool
  | 0, _ => []
  | w + 1, n => natToBits w (n / 2) ++ [decide (n % 2 = 1)]

/-- The first loop of `decomp`: expand every packed byte into its eight
bits, most significant first. -/
def bytesToBits : List Nat → List Bool
  | [] => []
  | b :: rest => natToBits 8 b ++ bytesToBits rest

/-- The second loop of `decomp`: the inverse mapping code → byte.  The
code tables the program builds have pairwise distinct code strings, so
lookup in this association list agrees with the `HashMap` the Rust code
fills in whatever order it iterates `huffman_codes`. -/
def invertTable (table : List (Nat × List Bool)) : List (List Bool × Nat) :=
  table.map (fun p => (p.2, p.1))

/-- The scanning loop of `decomp`: accumulate bits into `cur`; whenever
the accumulated string is a key of the inverse mapping, emit its byte
and reset the accumulator. -/
def decodeBits : List Bool → List Bool → List (List Bool × Nat) → List Nat
  | [], _, _ => []
  | bit :: rest, cur, inv =>
    match inv.lookup (cur ++ [bit]) with
    | some b => b :: decodeBits rest [] inv
    | none => decodeBits rest (cur ++ [bit]) inv

/-- `decomp`: expand the packed bytes into bits and scan them against the
inverted code table. -/
def decomp (table : List (Nat × List Bool)) (packed : List Nat) : List Nat :=
  decodeBits (bytesToBits packed) [] (invertTable table)

/-- The check of §8 weight conservation: every node with two children
has `frequency = left.frequency + right.frequency`. -/
def weightConserved : ByteNode → Bool
  | .mk _ f (some x) (some y) =>
      (f == x.frequency + y.frequency) && weightConserved x && weightConserved y
  | .mk _ _ (some x) none => weightConserved x
  | .mk _ _ none (some y) => weightConserved y
  | .mk _ _ none none => true

/-- Modelled from the spec (§3 PackedStream), for comparison with
`zip_bytes_with_codes`: the concatenated codes packed 8 bits per byte
with the final byte zero-padded on its low-order (trailing) end when the
total bit count is not a multiple of 8. -/
def zipBytesSpecLayout (bytes : List Nat) (table : List (Nat × List Bool)) :
    Option (List Nat) :=
  (concatCodes bytes table).map fun bits =>
    chunkBits (bits ++ List.replicate ((8 - bits.length % 8) % 8) false)

/-! ### Bit-level lemmas: packing vs. the decoder's bit expansion -/

theorem bitsVal_append_bit (l : List Bool) (b : Bool) :
    bitsVal (l ++ [b]) = 2 * bitsVal l + b.toNat := by
  simp [bitsVal, List.foldl_append]

theorem natToBits_zero : ∀ w : Nat, natToBits w 0 = List.replicate w false := by
  intro w
  induction w with
  | zero => simp [natToBits]
  | succ w ih => simp [natToBits, ih, List.replicate_succ']

/-- The decoder expansion of a packed value: `w` bits of value `bitsVal l`
render as `l` preceded by `w - l.length` zero bits. -/
theorem natToBits_bitsVal : ∀ (l : List Bool) (w : Nat), l.length ≤ w →
    natToBits w (bitsVal l) = List.replicate (w - l.length) false ++ l := by
  intro l
  induction l using List.reverseRecOn with
  | nil => intro w _; simp [bitsVal, natToBits_zero]
  | append_singleton l b ih =>
    intro w hw
    simp only [List.length_append, List.length_singleton] at hw
    cases w with
    | zero => omega
    | succ w =>
      rw [bitsVal_append_bit]
      show natToBits (w + 1) _ = _
      rw [natToBits]
      have h2 : (2 * bitsVal l + b.toNat) / 2 = bitsVal l := by
        cases b <;> simp [Bool.toNat] <;> omega
      have h3 : decide ((2 * bitsVal l + b.toNat) % 2 = 1) = b := by
        cases b <;> simp [Bool.toNat] <;> omega
      rw [h2, h3, ih w (by omega)]
      have harith : w + 1 - (l.length + 1) = w - l.length := by omega
      simp only [List.length_append, List.length_singleton, harith,
        List.append_assoc]

/-- Every non-empty bit string chunks as its first eight bits (read as a
binary numeral) followed by the chunks of the rest. -/
theorem chunkBits_ne_nil : ∀ bits : List Bool, bits ≠ [] →
    chunkBits bits = bitsVal (bits.take 8) :: chunkBits (bits.drop 8) := by
  intro bits hne
  match bits with
  | [] => exact absurd rfl hne
  | [b₀] => simp [chunkBits]
  | [b₀, b₁] => simp [chunkBits]
  | [b₀, b₁, b₂] => simp [chunkBits]
  | [b₀, b₁, b₂, b₃] => simp [chunkBits]
  | [b₀, b₁, b₂, b₃, b₄] => simp [chunkBits]
  | [b₀, b₁, b₂, b₃, b₄, b₅] => simp [chunkBits]
  | [b₀, b₁, b₂, b₃, b₄, b₅, b₆] => simp [chunkBits]
  | b₀ :: b₁ :: b₂ :: b₃ :: b₄ :: b₅ :: b₆ :: b₇ :: rest => simp [chunkBits]

/-- The packed stream has exactly `⌈bit count / 8⌉` bytes. -/
theorem chunkBits_length (bits : List Bool) :
    (chunkBits bits).length = (bits.length + 7) / 8 := by
  rcases eq_or_ne bits [] with rfl | hne
  · simp [chunkBits]
  · rw [chunkBits_ne_nil bits hne]
    have hpos : bits.length ≠ 0 := fun h => hne (List.eq_nil_of_length_eq_zero h)
    by_cases h8 : 8 ≤ bits.length
    · have ihr := chunkBits_length (bits.drop 8)
      simp only [List.length_cons, ihr, List.length_drop]
      omega
    · have hd : bits.drop 8 = [] := List.drop_eq_nil_of_le (by omega)
      rw [hd]
      simp only [chunkBits, List.length_cons, List.length_nil]
      omega
termination_by bits.length
decreasing_by
  simp only [List.length_drop]
  omega

/-- What the decoder sees after packing: the full chunks of the bit
string come back exactly, but the final partial chunk (when the bit
count is not a multiple of 8) comes back with its padding zeros
*before* it — the remaining bits sit in the low-order positions of the
final byte. -/
theorem bytesToBits_chunkBits (bits : List Bool) :
    bytesToBits (chunkBits bits) =
      bits.take (8 * (bits.length / 8)) ++
        List.replicate ((8 - bits.length % 8) % 8) false ++
        bits.drop (8 * (bits.length / 8)) := by
  rcases eq_or_ne bits [] with rfl | hne
  · simp [chunkBits, bytesToBits]
  · rw [chunkBits_ne_nil bits hne]
    have hpos : bits.length ≠ 0 := fun h => hne (List.eq_nil_of_length_eq_zero h)
    by_cases h8 : 8 ≤ bits.length
    · have htl : (bits.take 8).length = 8 := by
        simp [List.length_take]; omega
      have hfull : natToBits 8 (bitsVal (bits.take 8)) = bits.take 8 := by
        rw [natToBits_bitsVal (bits.take 8) 8 (by omega), htl]
        simp
      have ihr := bytesToBits_chunkBits (bits.drop 8)
      show natToBits 8 (bitsVal (bits.take 8)) ++ bytesToBits (chunkBits (bits.drop 8)) = _
      rw [hfull, ihr]
      simp only [List.length_drop]
      have e₁ : 8 * (bits.length / 8) = 8 + 8 * ((bits.length - 8) / 8) := by omega
      have e₂ : (8 - (bits.length - 8) % 8) % 8 = (8 - bits.length % 8) % 8 := by omega
      have e₄ : (bits.drop 8).drop (8 * ((bits.length - 8) / 8)) =
          bits.drop (8 + 8 * ((bits.length - 8) / 8)) := by
        rw [List.drop_drop]
      rw [e₂, e₄, e₁]
      have e₅ : bits.take (8 + 8 * ((bits.length - 8) / 8)) =
          bits.take 8 ++ (bits.drop 8).take (8 * ((bits.length - 8) / 8)) := by
        rw [List.take_add]
      rw [e₅]
      simp [List.append_assoc]
    · have hd : bits.drop 8 = [] := List.drop_eq_nil_of_le (by omega)
      have ht : bits.take 8 = bits := List.take_of_length_le (by omega)
      rw [hd, ht]
      show natToBits 8 (bitsVal bits) ++ bytesToBits (chunkBits []) = _
      rw [natToBits_bitsVal bits 8 (by omega)]
      have e₁ : 8 * (bits.length / 8) = 0 := by omega
      have e₂ : (8 - bits.length % 8) % 8 = 8 - bits.length := by omega
      rw [e₁, e₂]
      simp [chunkBits, bytesToBits]
termination_by bits.length
decreasing_by
  simp only [List.length_drop]
  omega

/-- When the total bit count is a multiple of 8, packing then expanding
is the identity on the bit string. -/
theorem bytesToBits_chunkBits_exact (bits : List Bool)
    (h : bits.length % 8 = 0) :
    bytesToBits (chunkBits bits) = bits := by
  rw [bytesToBits_chunkBits bits]
  have e₁ : 8 * (bits.length / 8) = bits.length := by omega
  have e₂ : (8 - bits.length % 8) % 8 = 0 := by omega
  rw [e₁, e₂, List.take_length, List.drop_length]
  simp

/-- Induction over `ByteNode` through its optional children. -/
theorem byteNode_ind (P : ByteNode → Prop)
    (h : ∀ d f l r, (∀ x, l = some x → P x) → (∀ y, r = some y → P y) →
      P (ByteNode.mk d f l r)) :
    ∀ t, P t
  | ByteNode.mk d f l r =>
    h d f l r (fun x _ => byteNode_ind P h x) (fun y _ => byteNode_ind P h y)
termination_by t => sizeOf t
decreasing_by
  · rename_i hx; subst hx; simp; omega
  · rename_i hy; subst hy; simp; omega

/-! ### Code-table lemmas -/

/-- Two table entries whose codes are incomparable: neither is a prefix
(`<+:`) of the other. -/
def codesIncomp (p q : Nat × List Bool) : Prop :=
  ¬ p.2 <+: q.2 ∧ ¬ q.2 <+: p.2

theorem codesIncomp_symm : Symmetric codesIncomp :=
  fun _ _ h => ⟨h.2, h.1⟩

/-- Every code recorded below a node extends that node's prefix. -/
theorem bhc_shape (t : ByteNode) : ∀ pre p, p ∈ build_huff_codes t pre →
    ∃ s, p.2 = pre ++ s := by
  induction t using byteNode_ind with
  | h d f l r ihl ihr =>
    intro pre p hp
    match d, l, r with
    | some v, l, r =>
      simp [build_huff_codes] at hp
      exact ⟨[], by simp [hp]⟩
    | none, none, none => simp [build_huff_codes] at hp
    | none, some lt, none =>
      obtain ⟨s, hs⟩ := ihl lt rfl (pre ++ [false]) p hp
      exact ⟨false :: s, by simp [hs]⟩
    | none, none, some rt =>
      obtain ⟨s, hs⟩ := ihr rt rfl (pre ++ [true]) p hp
      exact ⟨true :: s, by simp [hs]⟩
    | none, some lt, some rt =>
      simp only [build_huff_codes, List.mem_append] at hp
      rcases hp with hp | hp
      · obtain ⟨s, hs⟩ := ihl lt rfl (pre ++ [false]) p hp
        exact ⟨false :: s, by simp [hs]⟩
      · obtain ⟨s, hs⟩ := ihr rt rfl (pre ++ [true]) p hp
        exact ⟨true :: s, by simp [hs]⟩

/-- Paths through opposite children of one node are incomparable. -/
theorem cross_not_pre (pre s₁ s₂ : List Bool) (b₁ b₂ : Bool) (hne : b₁ ≠ b₂) :
    ¬ (pre ++ [b₁] ++ s₁) <+: (pre ++ [b₂] ++ s₂) := by
  rintro ⟨tl, htl⟩
  simp only [List.append_assoc] at htl
  have h₂ := List.append_cancel_left htl
  simp at h₂
  exact hne h₂.1

/-- The code table of any tree is pairwise prefix-incomparable. -/
theorem bhc_pairwise (t : ByteNode) :
    ∀ pre, (build_huff_codes t pre).Pairwise codesIncomp := by
  induction t using byteNode_ind with
  | h d f l r ihl ihr =>
    intro pre
    match d, l, r with
    | some v, l, r => simp [build_huff_codes]
    | none, none, none => simp [build_huff_codes]
    | none, some lt, none => exact ihl lt rfl (pre ++ [false])
    | none, none, some rt => exact ihr rt rfl (pre ++ [true])
    | none, some lt, some rt =>
      show (build_huff_codes lt (pre ++ [false]) ++
        build_huff_codes rt (pre ++ [true])).Pairwise codesIncomp
      rw [List.pairwise_append]
      refine ⟨ihl lt rfl (pre ++ [false]), ihr rt rfl (pre ++ [true]), ?_⟩
      intro a ha b hb
      obtain ⟨s₁, hs₁⟩ := bhc_shape lt (pre ++ [false]) a ha
      obtain ⟨s₂, hs₂⟩ := bhc_shape rt (pre ++ [true]) b hb
      rw [codesIncomp, hs₁, hs₂]
      exact ⟨cross_not_pre pre s₁ s₂ false true (by simp),
        cross_not_pre pre s₂ s₁ true false (by simp)⟩

/-- Under a root with two children every recorded code is non-empty. -/
theorem get_huff_codes_codes_ne_nil (f : Nat) (x y : ByteNode) :
    ∀ p ∈ get_huff_codes (ByteNode.mk none f (some x) (some y)), p.2 ≠ [] := by
  intro p hp
  have hsplit : get_huff_codes (ByteNode.mk none f (some x) (some y)) =
      build_huff_codes x [false] ++ build_huff_codes y [true] := by
    simp [get_huff_codes, build_huff_codes]
  rw [hsplit] at hp
  rcases List.mem_append.mp hp with h | h
  · obtain ⟨s, hs⟩ := bhc_shape x [false] p h
    simp [hs]
  · obtain ⟨s, hs⟩ := bhc_shape y [true] p h
    simp [hs]

/-- A successful association-list lookup returns an entry of the list. -/
theorem lookup_mem_table {α β : Type} [BEq α] [LawfulBEq α]
    {l : List (α × β)} {k : α} {v : β}
    (h : l.lookup k = some v) : (k, v) ∈ l := by
  obtain ⟨l₁, l₂, rfl, -⟩ := List.lookup_eq_some_iff.mp h
  simp

/-! ### Decoder lemmas -/

/-- On a pairwise-incomparable table the inverted map resolves a stored
code to its byte (entries with equal codes cannot coexist). -/
theorem invertTable_lookup_eq (table : List (Nat × List Bool))
    (hpw : table.Pairwise codesIncomp) (b : Nat) (c : List Bool)
    (hmem : (b, c) ∈ table) :
    (invertTable table).lookup c = some b := by
  induction table with
  | nil => simp at hmem
  | cons q rest ih =>
    obtain ⟨b₀, c₀⟩ := q
    rw [List.pairwise_cons] at hpw
    rcases List.mem_cons.mp hmem with heq | hmem₂
    · obtain ⟨rfl, rfl⟩ := Prod.mk.injEq .. ▸ heq
      exact List.lookup_cons_self
    · have hinc := hpw.1 (b, c) hmem₂
      have hne : (c == c₀) = false := by
        rw [beq_eq_false_iff_ne]
        intro hcc
        exact hinc.1 (hcc ▸ List.prefix_refl c₀)
      show ((c₀, b₀) :: invertTable rest).lookup c = some b
      rw [List.lookup_cons, hne]
      exact ih hpw.2 hmem₂

/-- A string that is the code of no table entry misses the inverted map. -/
theorem invertTable_lookup_none (table : List (Nat × List Bool))
    (p : List Bool) (hnone : ∀ q ∈ table, q.2 ≠ p) :
    (invertTable table).lookup p = none := by
  rw [List.lookup_eq_none_iff]
  intro q hq
  simp only [invertTable, List.mem_map] at hq
  obtain ⟨r, hr, rfl⟩ := hq
  rw [bne_iff_ne]
  exact (hnone r hr).symm

/-- On a pairwise-incomparable table, no entry's code equals a proper
prefix of a stored code. -/
theorem pairwise_no_proper_pre (table : List (Nat × List Bool))
    (hpw : table.Pairwise codesIncomp) (b : Nat) (c : List Bool)
    (hmem : (b, c) ∈ table) (p : List Bool) (hp : p <+: c) (hne : p ≠ c) :
    ∀ q ∈ table, q.2 ≠ p := by
  intro q hq
  rcases eq_or_ne q (b, c) with rfl | hqq
  · intro h
    exact hne (by rw [← h])
  · have hinc := List.Pairwise.forall codesIncomp_symm hpw hq hmem hqq
    intro h
    exact hinc.1 (h ▸ hp)

/-- Scanning the bits of a stored code (with any bits following it)
emits exactly its byte: no proper prefix of the code matches the
inverted table, and the full code resolves to the byte. -/
theorem decodeBits_code (table : List (Nat × List Bool))
    (hpw : table.Pairwise codesIncomp) (b : Nat) (c : List Bool)
    (hmem : (b, c) ∈ table) :
    ∀ c₂ c₁ rest, c₁ ++ c₂ = c → c₂ ≠ [] →
      decodeBits (c₂ ++ rest) c₁ (invertTable table) =
        b :: decodeBits rest [] (invertTable table) := by
  intro c₂
  induction c₂ with
  | nil => intro c₁ rest _ hne; exact absurd rfl hne
  | cons bit c₂ ih =>
    intro c₁ rest hsplit hne
    rcases eq_or_ne c₂ [] with rfl | hc₂
    · have hcur : c₁ ++ [bit] = c := by simpa using hsplit
      show decodeBits (bit :: rest) c₁ _ = _
      rw [decodeBits, hcur, invertTable_lookup_eq table hpw b c hmem]
    · have hpre : (c₁ ++ [bit]) <+: c :=
        ⟨c₂, by rw [← hsplit]; simp⟩
      have hnec : c₁ ++ [bit] ≠ c := by
        intro h
        rw [← h] at hsplit
        have := List.append_cancel_left hsplit
        simp at this
        exact hc₂ this
      have hnoq := pairwise_no_proper_pre table hpw b c hmem (c₁ ++ [bit])
        hpre hnec
      have hlk := invertTable_lookup_none table (c₁ ++ [bit]) hnoq
      show decodeBits (bit :: (c₂ ++ rest)) c₁ _ = _
      rw [decodeBits, hlk]
      exact ih (c₁ ++ [bit]) rest (by rw [← hsplit]; simp) hc₂

/-- Scanning a concatenation of stored codes recovers the byte sequence
(pairwise-incomparable table, all codes non-empty). -/
theorem decodeBits_concatCodes (table : List (Nat × List Bool))
    (hpw : table.Pairwise codesIncomp) (hcne : ∀ q ∈ table, q.2 ≠ []) :
    ∀ bytes bits, concatCodes bytes table = some bits →
      decodeBits bits [] (invertTable table) = bytes := by
  intro bytes
  induction bytes with
  | nil =>
    intro bits h
    simp only [concatCodes, Option.some.injEq] at h
    rw [← h]
    rfl
  | cons b rest ih =>
    intro bits h
    simp only [concatCodes] at h
    cases hlb : List.lookup b table with
    | none => rw [hlb] at h; simp at h
    | some c =>
      cases hcc : concatCodes rest table with
      | none => rw [hlb, hcc] at h; simp at h
      | some cs =>
        rw [hlb, hcc] at h
        simp only [Option.some.injEq] at h
        have hmem : (b, c) ∈ table := lookup_mem_table hlb
        have hbne : c ≠ [] := hcne (b, c) hmem
        rw [← h, decodeBits_code table hpw b c hmem c [] cs rfl hbne,
          ih cs hcc]

/-! ### Tree-construction lemmas -/

theorem popMin_perm {l : List ByteNode} {x : ByteNode} {l' : List ByteNode}
    (h : PopMin l x l') : l.Perm (x :: l') := by
  obtain ⟨⟨p, q, rfl, rfl⟩, -⟩ := h
  exact List.perm_middle

theorem popMin_mem {l : List ByteNode} {x : ByteNode} {l' : List ByteNode}
    (h : PopMin l x l') : x ∈ l := by
  obtain ⟨⟨p, q, rfl, -⟩, -⟩ := h
  simp

theorem popMin_subset {l : List ByteNode} {x : ByteNode} {l' : List ByteNode}
    (h : PopMin l x l') : ∀ a ∈ l', a ∈ l := by
  obtain ⟨⟨p, q, rfl, rfl⟩, -⟩ := h
  intro a ha
  rcases List.mem_append.mp ha with h | h
  · exact List.mem_append.mpr (Or.inl h)
  · exact List.mem_append.mpr (Or.inr (List.mem_cons_of_mem x h))

/-- The root's frequency is the sum of the frequencies in the heap. -/
theorem buildsTree_frequency : ∀ {l : List ByteNode} {t : ByteNode},
    BuildsTree l t → t.frequency = (l.map ByteNode.frequency).sum := by
  intro l t h
  induction h with
  | done t => simp
  | step l l₁ l₂ x y t h₁ h₂ hb ih =>
    have e₁ : (l.map ByteNode.frequency).sum =
        ((x :: l₁).map ByteNode.frequency).sum :=
      ((popMin_perm h₁).map ByteNode.frequency).sum_eq
    have e₂ : (l₁.map ByteNode.frequency).sum =
        ((y :: l₂).map ByteNode.frequency).sum :=
      ((popMin_perm h₂).map ByteNode.frequency).sum_eq
    simp only [List.map_cons, List.sum_cons, ByteNode.frequency_mk] at e₁ e₂ ih
    omega

/-- Weight conservation is preserved by combining nodes. -/
theorem buildsTree_weightConserved : ∀ {l : List ByteNode} {t : ByteNode},
    BuildsTree l t → (∀ n ∈ l, weightConserved n = true) →
    weightConserved t = true := by
  intro l t h
  induction h with
  | done t => intro hall; exact hall t (by simp)
  | step l l₁ l₂ x y t h₁ h₂ hb ih =>
    intro hall
    apply ih
    intro n hn
    rcases List.mem_cons.mp hn with rfl | hn₂
    · have hx : weightConserved x = true := hall x (popMin_mem h₁)
      have hy : weightConserved y = true :=
        hall y (popMin_subset h₁ y (popMin_mem h₂))
      simp [weightConserved, hx, hy]
    · exact hall n (popMin_subset h₁ n (popMin_subset h₂ n hn₂))

/-- From a one-element heap the loop body never runs: the result is that
element. -/
theorem buildsTree_singleton {a t : ByteNode} (h : BuildsTree [a] t) :
    t = a := by
  cases h with
  | done => rfl
  | step l l₁ l₂ x y t₀ h₁ h₂ hb =>
    exfalso
    obtain ⟨⟨p, q, hpq, hl₁⟩, -⟩ := h₁
    have hlen := congrArg List.length hpq
    simp at hlen
    have hp : p = [] := List.length_eq_zero.mp (by omega)
    have hq : q = [] := List.length_eq_zero.mp (by omega)
    subst hp
    subst hq
    simp at hl₁
    subst hl₁
    obtain ⟨⟨p₂, q₂, hpq₂, -⟩, -⟩ := h₂
    have h0 := congrArg List.length hpq₂
    simp at h0
    omega

/-- From a heap with at least two nodes the result is an internal node
combining two subtrees. -/
theorem buildsTree_internal : ∀ {l : List ByteNode} {t : ByteNode},
    BuildsTree l t → 2 ≤ l.length →
    ∃ x y : ByteNode,
      t = ByteNode.mk none (x.frequency + y.frequency) (some x) (some y) := by
  intro l t h
  induction h with
  | done t => intro h2; simp at h2
  | step l l₁ l₂ x y t h₁ h₂ hb ih =>
    intro _
    rcases eq_or_ne l₂ [] with rfl | hne
    · exact ⟨x, y, buildsTree_singleton hb⟩
    · apply ih
      have : 0 < l₂.length := List.length_pos.mpr hne
      simp only [List.length_cons]
      omega

/-! ### Frequency-map lemmas -/

theorem addByte_lookup (m : List (Nat × Nat)) (b k : Nat) :
    (addByte m b).lookup k =
      if k = b then some (((m.lookup k).getD 0) + 1) else m.lookup k := by
  induction m with
  | nil =>
    by_cases hk : k = b
    · subst hk
      simp [addByte]
    · have hkb : (k == b) = false := beq_eq_false_iff_ne.mpr hk
      simp [addByte, List.lookup_cons, hkb, hk]
  | cons p rest ih =>
    obtain ⟨a, v⟩ := p
    by_cases hab : a = b
    · subst hab
      simp only [addByte, if_pos rfl]
      by_cases hk : k = a
      · subst hk
        simp [List.lookup_cons]
      · have hka : (k == a) = false := beq_eq_false_iff_ne.mpr hk
        simp [List.lookup_cons, hka, hk]
    · simp only [addByte, if_neg hab]
      by_cases hk : k = a
      · subst hk
        have hkb : ¬ k = b := hab
        simp [List.lookup_cons, hkb]
      · have hka : (k == a) = false := beq_eq_false_iff_ne.mpr hk
        simp [List.lookup_cons, hka, hk, ih]

theorem foldl_addByte_lookup : ∀ (l : List Nat) (m : List (Nat × Nat)) (k : Nat),
    (l.foldl addByte m).lookup k =
      match m.lookup k with
      | some v => some (v + l.count k)
      | none => if l.count k = 0 then none else some (l.count k) := by
  intro l
  induction l with
  | nil =>
    intro m k
    cases hm : m.lookup k <;> simp [hm]
  | cons b rest ih =>
    intro m k
    rw [List.foldl_cons, ih (addByte m b) k, addByte_lookup m b k]
    by_cases hk : k = b
    · subst hk
      cases hm : m.lookup k with
      | some v =>
        simp only [if_pos rfl, hm, Option.getD_some, List.count_cons,
          beq_self_eq_true, if_pos]
        simp
        omega
      | none =>
        simp only [if_pos rfl, hm, Option.getD_none, List.count_cons,
          beq_self_eq_true, if_pos]
        simp
        omega
    · have hkb : (k == b) = false := beq_eq_false_iff_ne.mpr hk
      cases hm : m.lookup k <;>
        simp [hk, hm, List.count_cons, hkb]

/-- `FrequencyCounter`: the frequency map sends each byte value to its
occurrence count, and has no entry for values that do not occur. -/
theorem freq_map_lookup (bytes : List Nat) (k : Nat) :
    (freq_map bytes).lookup k =
      if bytes.count k = 0 then none else some (bytes.count k) := by
  have h := foldl_addByte_lookup bytes [] k
  simpa [freq_map] using h

theorem addByte_sum (m : List (Nat × Nat)) (b : Nat) :
    ((addByte m b).map Prod.snd).sum = (m.map Prod.snd).sum + 1 := by
  induction m with
  | nil => simp [addByte]
  | cons p rest ih =>
    obtain ⟨a, v⟩ := p
    by_cases hab : a = b
    · subst hab; simp [addByte]; omega
    · simp [addByte, hab, ih]; omega

theorem foldl_addByte_sum : ∀ (l : List Nat) (m : List (Nat × Nat)),
    ((l.foldl addByte m).map Prod.snd).sum = (m.map Prod.snd).sum + l.length := by
  intro l
  induction l with
  | nil => intro m; simp
  | cons b rest ih =>
    intro m
    rw [List.foldl_cons, ih (addByte m b), addByte_sum]
    simp only [List.length_cons]
    omega

/-- The frequency counts sum to the input length. -/
theorem freq_map_sum (bytes : List Nat) :
    ((freq_map bytes).map Prod.snd).sum = bytes.length := by
  simpa [freq_map] using foldl_addByte_sum bytes []

theorem get_byte_nodes_sum (bytes : List Nat) :
    ((get_byte_nodes bytes).map ByteNode.frequency).sum = bytes.length := by
  rw [get_byte_nodes, List.map_map]
  have hcomp : (ByteNode.frequency ∘
      fun p : Nat × Nat => ByteNode.mk (some p.1) p.2 none none) = Prod.snd := by
    funext p
    rfl
  rw [hcomp, freq_map_sum]

theorem get_byte_nodes_wc (bytes : List Nat) :
    ∀ n ∈ get_byte_nodes bytes, weightConserved n = true := by
  intro n hn
  simp only [get_byte_nodes, List.mem_map] at hn
  obtain ⟨p, -, rfl⟩ := hn
  rfl

/-! ### Evaluating the deterministic tree builder -/

theorem create_huffman_tree_nil : create_huffman_tree [] = none := by
  unfold create_huffman_tree
  simp [popMinD]

theorem create_huffman_tree_one (t : ByteNode) :
    create_huffman_tree [t] = some t := by
  unfold create_huffman_tree
  simp [popMinD]

/-! ### Claim theorems -/

/-- C4 (code bug): a frequency mapping with zero distinct byte values
gives an empty heap; `create_huffman_tree` then reaches
`nodes.pop().unwrap()` on `None` — a panic, modelled as `none` — instead
of reporting an explicit `EmptyInputError` to the caller.  No relational
execution exists either (`BuildsTree` has no derivation from `[]`), so
compressing the empty input aborts the whole process. -/
theorem c4_empty_input_panics :
    get_byte_nodes [] = [] ∧ create_huffman_tree [] = none ∧
      create_zip [] = none := by
  refine ⟨rfl, create_huffman_tree_nil, ?_⟩
  have h : create_huffman_tree (get_byte_nodes []) = none :=
    create_huffman_tree_nil
  simp [create_zip, h]

/-- C1 (code bug): the round-trip identity fails on the single-byte
input `[0x41]`.  Its only Huffman tree is the bare leaf, whose derived
code is the empty bit string; the packed stream is empty and
decompression returns `[]`, not `[0x41]`. -/
theorem c1_roundtrip_fails_on_single_byte :
    BuildsTree (get_byte_nodes [65]) (ByteNode.mk (some 65) 1 none none) ∧
    create_zip [65] = some ([], [(65, [])]) ∧
    decomp [(65, [])] [] = [] ∧
    ([] : List Nat) ≠ [65] := by
  have h1 : create_huffman_tree (get_byte_nodes [65]) =
      some (ByteNode.mk (some 65) 1 none none) :=
    create_huffman_tree_one (ByteNode.mk (some 65) 1 none none)
  refine ⟨BuildsTree.done _, ?_, rfl, by simp⟩
  simp [create_zip, h1]
  rfl

/-- C2 (code bug): on the input `[0x41, 0x41, 0x41]` (one distinct byte
value) `build_huff_codes` records the **empty** string for `0x41` — the
root is the leaf itself and the accumulated path is empty — so the code
table violates the required non-empty-code edge case, the packed stream
is empty, and the round trip returns `[]` instead of the input. -/
theorem c2_single_byte_code_is_empty :
    get_huff_codes (ByteNode.mk (some 65) 3 none none) = [(65, [])] ∧
    BuildsTree (get_byte_nodes [65, 65, 65]) (ByteNode.mk (some 65) 3 none none) ∧
    create_zip [65, 65, 65] = some ([], [(65, [])]) ∧
    decomp [(65, [])] [] = [] := by
  have h1 : create_huffman_tree (get_byte_nodes [65, 65, 65]) =
      some (ByteNode.mk (some 65) 3 none none) :=
    create_huffman_tree_one (ByteNode.mk (some 65) 3 none none)
  refine ⟨rfl, BuildsTree.done _, ?_, rfl⟩
  simp [create_zip, h1]
  rfl

/-- C3 counterexample: with the code table `{0 ↦ 0, 1 ↦ 1}` (which the
pipeline itself derives for the input `[0, 1]`), the packer emits the
byte `0b00000001 = 1`: the two code bits end up in the *low-order*
positions of the final byte.  The layout claimed by the spec — padding
on the low-order (trailing) end — would emit `0b01000000 = 64`. -/
theorem c3_layout_counterexample :
    zip_bytes_with_codes [0, 1] [(0, [false]), (1, [true])] = some [1] ∧
    zipBytesSpecLayout [0, 1] [(0, [false]), (1, [true])] = some [64] ∧
    ([1] : List Nat) ≠ [64] := by
  refine ⟨by decide, ?_, by decide⟩
  decide

/-- C3 amended: the packed stream is the concatenated codes packed 8
bits per output byte, and when the total bit count is not a multiple of
8 the final byte is padded on its *high-order (leading)* end — the
remaining bits occupy its low-order positions, so the decoder's bit
expansion sees the padding zeros *before* the final partial chunk. -/
theorem c3_packed_layout (bytes : List Nat) (table : List (Nat × List Bool))
    (bits : List Bool)
    (hcode : concatCodes bytes table = some bits) :
    zip_bytes_with_codes bytes table = some (chunkBits bits) ∧
    bytesToBits (chunkBits bits) =
      bits.take (8 * (bits.length / 8)) ++
        List.replicate ((8 - bits.length % 8) % 8) false ++
        bits.drop (8 * (bits.length / 8)) :=
  ⟨by simp [zip_bytes_with_codes, hcode], bytesToBits_chunkBits bits⟩

/-- C3 witness: the amended layout at the concrete input `[0, 1]` with
its pipeline-derived table; the 2 packed bits come back behind 6 leading
padding zeros. -/
theorem c3_packed_layout_witness :
    zip_bytes_with_codes [0, 1] [(0, [false]), (1, [true])] =
      some (chunkBits [false, true]) ∧
    bytesToBits (chunkBits [false, true]) =
      [false, true].take (8 * ([false, true].length / 8)) ++
        List.replicate ((8 - [false, true].length % 8) % 8) false ++
        [false, true].drop (8 * ([false, true].length / 8)) :=
  c3_packed_layout [0, 1] [(0, [false]), (1, [true])] [false, true] rfl

/-- C7: `FrequencyCounter` correctness — the frequency map has an entry
exactly for the byte values that occur, each mapped to its occurrence
count (hence ≥ 1), and the empty input yields an empty mapping (and an
empty heap) with no failure possible. -/
theorem c7_frequency_counter :
    (∀ bytes k, (freq_map bytes).lookup k =
      if bytes.count k = 0 then none else some (bytes.count k)) ∧
    freq_map [] = [] ∧ get_byte_nodes [] = [] :=
  ⟨freq_map_lookup, rfl, rfl⟩

/-- C5: prefix-code invariant.  For every execution of the pipeline on a
non-empty input (any heap order `l`, any tie-breaking in `BuildsTree`),
two entries of the derived code table with distinct byte values have
prefix-incomparable codes. -/
theorem c5_code_table_prefix_incomparable (bytes : List Nat)
    (l : List ByteNode) (t : ByteNode)
    (hne : bytes ≠ [])
    (hperm : l.Perm (get_byte_nodes bytes))
    (hbuild : BuildsTree l t) :
    ∀ b₁ c₁ b₂ c₂, (b₁, c₁) ∈ get_huff_codes t → (b₂, c₂) ∈ get_huff_codes t →
      b₁ ≠ b₂ → ¬ c₁ <+: c₂ := by
  intro b₁ c₁ b₂ c₂ h₁ h₂ hbne
  have hpw : (get_huff_codes t).Pairwise codesIncomp := bhc_pairwise t []
  rcases eq_or_ne ((b₁, c₁) : Nat × List Bool) (b₂, c₂) with heq | hne₂
  · exact absurd (congrArg Prod.fst heq) hbne
  · exact (List.Pairwise.forall codesIncomp_symm hpw h₁ h₂ hne₂).1

/-- One execution of the tree builder on the two-byte input `[0, 1]`:
both leaves have frequency 1, the left-popped node is the leaf for 0. -/
def pairTree : ByteNode :=
  ByteNode.mk none 2 (some (ByteNode.mk (some 0) 1 none none))
    (some (ByteNode.mk (some 1) 1 none none))

theorem buildsTree_pairTree : BuildsTree (get_byte_nodes [0, 1]) pairTree := by
  refine BuildsTree.step _ [ByteNode.mk (some 1) 1 none none] []
    (ByteNode.mk (some 0) 1 none none) (ByteNode.mk (some 1) 1 none none) _
    ⟨⟨[], [ByteNode.mk (some 1) 1 none none], rfl, rfl⟩, by decide⟩
    ⟨⟨[], [], rfl, rfl⟩, by decide⟩ (BuildsTree.done _)

/-- C5 witness: the two codes of the table derived for `[0, 1]`. -/
theorem c5_prefix_incomparable_witness : ¬ [false] <+: [true] :=
  c5_code_table_prefix_incomparable [0, 1] (get_byte_nodes [0, 1]) pairTree
    (by simp) (List.Perm.refl _) buildsTree_pairTree
    0 [false] 1 [true] (by decide) (by decide) (by decide)

/-- C6: weight conservation.  For every execution on a non-empty input,
every two-child node of the built tree weighs the sum of its children
(`weightConserved`), and the root's frequency equals the sum of all
frequency-map counts, which equals the input length. -/
theorem c6_weight_conservation (bytes : List Nat) (l : List ByteNode)
    (t : ByteNode)
    (hne : bytes ≠ [])
    (hperm : l.Perm (get_byte_nodes bytes))
    (hbuild : BuildsTree l t) :
    weightConserved t = true ∧
    t.frequency = ((freq_map bytes).map Prod.snd).sum ∧
    t.frequency = bytes.length := by
  have hsum : t.frequency = (l.map ByteNode.frequency).sum :=
    buildsTree_frequency hbuild
  have hps : (l.map ByteNode.frequency).sum =
      ((get_byte_nodes bytes).map ByteNode.frequency).sum :=
    (hperm.map ByteNode.frequency).sum_eq
  have hwc : weightConserved t = true := by
    apply buildsTree_weightConserved hbuild
    intro n hn
    exact get_byte_nodes_wc bytes n (hperm.subset hn)
  refine ⟨hwc, ?_, ?_⟩
  · rw [hsum, hps, get_byte_nodes_sum, freq_map_sum]
  · rw [hsum, hps, get_byte_nodes_sum]

/-- C6 witness: weight conservation evaluated on the execution
`buildsTree_pairTree` for the input `[0, 1]`. -/
theorem c6_weight_conservation_witness :
    weightConserved pairTree = true ∧
    pairTree.frequency = ((freq_map [0, 1]).map Prod.snd).sum ∧
    pairTree.frequency = [0, 1].length :=
  c6_weight_conservation [0, 1] (get_byte_nodes [0, 1]) pairTree
    (by simp) (List.Perm.refl _) buildsTree_pairTree

/-- C9: conditional round trip.  For every execution on an input with at
least two distinct byte values, if the concatenated encoding has a bit
length that is an exact multiple of 8, then decoding the packed stream
with the same code table reproduces the input exactly. -/
theorem c9_conditional_roundtrip (bytes : List Nat) (l : List ByteNode)
    (t : ByteNode) (bits : List Bool)
    (hperm : l.Perm (get_byte_nodes bytes))
    (hbuild : BuildsTree l t)
    (htwo : 2 ≤ (freq_map bytes).length)
    (hcode : concatCodes bytes (get_huff_codes t) = some bits)
    (hmul : bits.length % 8 = 0) :
    zip_bytes_with_codes bytes (get_huff_codes t) = some (chunkBits bits) ∧
    decomp (get_huff_codes t) (chunkBits bits) = bytes := by
  constructor
  · simp [zip_bytes_with_codes, hcode]
  · have hlen : 2 ≤ l.length := by
      rw [hperm.length_eq]
      simpa [get_byte_nodes] using htwo
    obtain ⟨x, y, rfl⟩ := buildsTree_internal hbuild hlen
    have hpw : (get_huff_codes (ByteNode.mk none (x.frequency + y.frequency)
        (some x) (some y))).Pairwise codesIncomp :=
      bhc_pairwise _ []
    have hcne := get_huff_codes_codes_ne_nil (x.frequency + y.frequency) x y
    rw [decomp, bytesToBits_chunkBits_exact bits hmul]
    exact decodeBits_concatCodes _ hpw hcne bytes bits hcode

/-- One execution of the tree builder on `[0,0,0,0,0,0,0,1]`: the leaf
for 1 (frequency 1) is popped before the leaf for 0 (frequency 7). -/
def skewTree : ByteNode :=
  ByteNode.mk none 8 (some (ByteNode.mk (some 1) 1 none none))
    (some (ByteNode.mk (some 0) 7 none none))

theorem buildsTree_skewTree :
    BuildsTree (get_byte_nodes [0, 0, 0, 0, 0, 0, 0, 1]) skewTree := by
  refine BuildsTree.step _ [ByteNode.mk (some 0) 7 none none] []
    (ByteNode.mk (some 1) 1 none none) (ByteNode.mk (some 0) 7 none none) _
    ⟨⟨[ByteNode.mk (some 0) 7 none none], [], rfl, rfl⟩, by decide⟩
    ⟨⟨[], [], rfl, rfl⟩, by decide⟩ (BuildsTree.done _)

/-- C9 witness: the input `[0,0,0,0,0,0,0,1]` (codes `0 ↦ 1`, `1 ↦ 0`)
encodes to exactly 8 bits, packs to the byte 254, and decodes back. -/
theorem c9_conditional_roundtrip_witness :
    zip_bytes_with_codes [0, 0, 0, 0, 0, 0, 0, 1] (get_huff_codes skewTree) =
      some (chunkBits [true, true, true, true, true, true, true, false]) ∧
    decomp (get_huff_codes skewTree)
        (chunkBits [true, true, true, true, true, true, true, false]) =
      [0, 0, 0, 0, 0, 0, 0, 1] :=
  c9_conditional_roundtrip [0, 0, 0, 0, 0, 0, 0, 1]
    (get_byte_nodes [0, 0, 0, 0, 0, 0, 0, 1]) skewTree
    [true, true, true, true, true, true, true, false]
    (List.Perm.refl _) buildsTree_skewTree (by decide) (by decide) (by decide)

/-- C10: packed-length bound.  For every input whose byte values are all
covered by the table, the concatenated encoding exists, its length is
the sum of the per-byte code lengths, and the packed stream has exactly
`⌈that sum / 8⌉` bytes; the empty input packs to the empty stream. -/
theorem c10_packed_length (bytes : List Nat) (table : List (Nat × List Bool))
    (hcov : ∀ b ∈ bytes, (table.lookup b).isSome) :
    ∃ bits, concatCodes bytes table = some bits ∧
      bits.length = (bytes.map (fun b => ((table.lookup b).getD []).length)).sum ∧
      zip_bytes_with_codes bytes table = some (chunkBits bits) ∧
      (chunkBits bits).length = (bits.length + 7) / 8 ∧
      zip_bytes_with_codes [] table = some [] := by
  have main : ∀ bs : List Nat, (∀ b ∈ bs, (table.lookup b).isSome) →
      ∃ bits, concatCodes bs table = some bits ∧
        bits.length = (bs.map (fun b => ((table.lookup b).getD []).length)).sum := by
    intro bs
    induction bs with
    | nil => intro _; exact ⟨[], rfl, by simp⟩
    | cons b rest ih =>
      intro hc
      obtain ⟨c, hcv⟩ := Option.isSome_iff_exists.mp (hc b (by simp))
      obtain ⟨bits, hbits, hlen⟩ := ih (fun a ha => hc a (by simp [ha]))
      refine ⟨c ++ bits, ?_, ?_⟩
      · simp [concatCodes, hcv, hbits]
      · simp [hcv, hlen]
  obtain ⟨bits, hbits, hlen⟩ := main bytes hcov
  exact ⟨bits, hbits, hlen, by simp [zip_bytes_with_codes, hbits],
    chunkBits_length bits, rfl⟩

/-- C10 witness: the covered input `[0, 1]` with the table
`{0 ↦ 0, 1 ↦ 1}`. -/
theorem c10_packed_length_witness :
    ∃ bits, concatCodes [0, 1] [(0, [false]), (1, [true])] = some bits ∧
      bits.length = ([0, 1].map
        (fun b => ((List.lookup b [(0, [false]), (1, [true])]).getD []).length)).sum ∧
      zip_bytes_with_codes [0, 1] [(0, [false]), (1, [true])] =
        some (chunkBits bits) ∧
      (chunkBits bits).length = (bits.length + 7) / 8 ∧
      zip_bytes_with_codes [] [(0, [false]), (1, [true])] = some [] :=
  c10_packed_length [0, 1] [(0, [false]), (1, [true])] (by decide)

/-- The tree one execution builds for `[97, 98, 99]` (combine the
leaves for 97 and 98 first, then attach the leaf for 99). -/
def abcTreeA : ByteNode :=
  ByteNode.mk none 3 (some (ByteNode.mk (some 99) 1 none none))
    (some (ByteNode.mk none 2 (some (ByteNode.mk (some 97) 1 none none))
      (some (ByteNode.mk (some 98) 1 none none))))

/-- The tree another execution builds for `[97, 98, 99]` (combine the
leaves for 98 and 99 first — all three leaves weigh 1, so this
tie-break is equally valid). -/
def abcTreeB : ByteNode :=
  ByteNode.mk none 3 (some (ByteNode.mk (some 97) 1 none none))
    (some (ByteNode.mk none 2 (some (ByteNode.mk (some 98) 1 none none))
      (some (ByteNode.mk (some 99) 1 none none))))

theorem buildsTree_abcTreeA :
    BuildsTree (get_byte_nodes [97, 98, 99]) abcTreeA := by
  refine BuildsTree.step _
    [ByteNode.mk (some 98) 1 none none, ByteNode.mk (some 99) 1 none none]
    [ByteNode.mk (some 99) 1 none none]
    (ByteNode.mk (some 97) 1 none none) (ByteNode.mk (some 98) 1 none none) _
    ⟨⟨[], [ByteNode.mk (some 98) 1 none none, ByteNode.mk (some 99) 1 none none],
      rfl, rfl⟩, by decide⟩
    ⟨⟨[], [ByteNode.mk (some 99) 1 none none], rfl, rfl⟩, by decide⟩ ?_
  show BuildsTree
    [ByteNode.mk none 2 (some (ByteNode.mk (some 97) 1 none none))
      (some (ByteNode.mk (some 98) 1 none none)),
     ByteNode.mk (some 99) 1 none none] abcTreeA
  refine BuildsTree.step _
    [ByteNode.mk none 2 (some (ByteNode.mk (some 97) 1 none none))
      (some (ByteNode.mk (some 98) 1 none none))] []
    (ByteNode.mk (some 99) 1 none none)
    (ByteNode.mk none 2 (some (ByteNode.mk (some 97) 1 none none))
      (some (ByteNode.mk (some 98) 1 none none))) _
    ⟨⟨[ByteNode.mk none 2 (some (ByteNode.mk (some 97) 1 none none))
      (some (ByteNode.mk (some 98) 1 none none))], [], rfl, rfl⟩, by decide⟩
    ⟨⟨[], [], rfl, rfl⟩, by decide⟩ (BuildsTree.done _)

theorem buildsTree_abcTreeB :
    BuildsTree (get_byte_nodes [97, 98, 99]) abcTreeB := by
  refine BuildsTree.step _
    [ByteNode.mk (some 97) 1 none none, ByteNode.mk (some 99) 1 none none]
    [ByteNode.mk (some 97) 1 none none]
    (ByteNode.mk (some 98) 1 none none) (ByteNode.mk (some 99) 1 none none) _
    ⟨⟨[ByteNode.mk (some 97) 1 none none], [ByteNode.mk (some 99) 1 none none],
      rfl, rfl⟩, by decide⟩
    ⟨⟨[ByteNode.mk (some 97) 1 none none], [], rfl, rfl⟩, by decide⟩ ?_
  show BuildsTree
    [ByteNode.mk none 2 (some (ByteNode.mk (some 98) 1 none none))
      (some (ByteNode.mk (some 99) 1 none none)),
     ByteNode.mk (some 97) 1 none none] abcTreeB
  refine BuildsTree.step _
    [ByteNode.mk none 2 (some (ByteNode.mk (some 98) 1 none none))
      (some (ByteNode.mk (some 99) 1 none none))] []
    (ByteNode.mk (some 97) 1 none none)
    (ByteNode.mk none 2 (some (ByteNode.mk (some 98) 1 none none))
      (some (ByteNode.mk (some 99) 1 none none))) _
    ⟨⟨[ByteNode.mk none 2 (some (ByteNode.mk (some 98) 1 none none))
      (some (ByteNode.mk (some 99) 1 none none))], [], rfl, rfl⟩, by decide⟩
    ⟨⟨[], [], rfl, rfl⟩, by decide⟩ (BuildsTree.done _)

/-- C8 (code bug): two valid executions of the pipeline on the same
input `[97, 98, 99]` — differing only in which equal-weight leaves are
popped first — produce artifacts that decompress to *different*
contents (`[99,99,99,97,98,99]` vs `[97,97,97,97,98,99]`; neither is
the input).  The 5-bit encodings acquire different leading padding
zeros inside the final byte, so tie-breaking leaks into the decoded
output, contradicting the claimed determinism of decompressed content. -/
theorem c8_tiebreaking_changes_output :
    BuildsTree (get_byte_nodes [97, 98, 99]) abcTreeA ∧
    BuildsTree (get_byte_nodes [97, 98, 99]) abcTreeB ∧
    Option.map (decomp (get_huff_codes abcTreeA))
      (zip_bytes_with_codes [97, 98, 99] (get_huff_codes abcTreeA)) =
      some [99, 99, 99, 97, 98, 99] ∧
    Option.map (decomp (get_huff_codes abcTreeB))
      (zip_bytes_with_codes [97, 98, 99] (get_huff_codes abcTreeB)) =
      some [97, 97, 97, 97, 98, 99] ∧
    ([99, 99, 99, 97, 98, 99] : List Nat) ≠ [97, 97, 97, 97, 98, 99] :=
  ⟨buildsTree_abcTreeA, buildsTree_abcTreeB, by decide, by decide, by decide⟩
